import Mathlib

/-!
Shallow embedding of the word-level diff core of `src/src/app/page.tsx`:

* the tokenizer, i.e. the JavaScript expression `text.split(/(\s+)/)`
  (split with a capture group, so whitespace runs are kept as tokens);
* the bounded-lookahead aligner `computeDiff`;
* the `handleCompare` entry point with its whitespace-only short-circuit
  (`if (!leftText.trim() && !rightText.trim()) { setDiffResults([]); ... }`).

Strings are modelled as lists of characters; segment lists are produced
exactly as the source pushes them.
-/

/-- A character string, modelled as a list of characters. -/
abbrev Str := List Char

/-- The whitespace class of the JavaScript regex `\s` (the same class is
used by `String.prototype.trim`). -/
def isJsWs (c : Char) : Bool :=
  c == ' ' || c == '\t' || c == '\n' || c == '\r' || c == '\x0b' || c == '\x0c' ||
  c == '\u00A0' || c == '\u1680' || (0x2000 ≤ c.toNat && c.toNat ≤ 0x200A) ||
  c == '\u2028' || c == '\u2029' || c == '\u202F' || c == '\u205F' ||
  c == '\u3000' || c == '\uFEFF'

/-- The `type` field of a `DiffSegment` in the source:
`'added' | 'removed' | 'unchanged'`. -/
inductive SegType where
  | added
  | removed
  | unchanged
deriving DecidableEq

/-- The `DiffSegment` interface of the source: `{ text: string, type: ... }`. -/
structure DiffSegment where
  text : Str
  type : SegType
deriving DecidableEq

/-- Index of the first occurrence of token `a` in a token list, scanning left
to right (`none` when absent).  This models the `for` scans of the lookahead
in `computeDiff`, which stop at the first match. -/
def findTokenIdx (a : Str) : List Str → Option Nat
  | [] => none
  | b :: bs => if b = a then some 0 else (findTokenIdx a bs).map (· + 1)

/-- The `computeDiff` while-loop of the source, as recursion on the
unprocessed suffixes of `left` and `right` (the suffixes from the cursors
`i` and `j` onwards).

* `[], []` — loop condition false, return.
* `[], r :: rs` — `i >= left.length`: push `right[j]` as `added`, `j++`.
* `l :: ls, []` — `j >= right.length`: push `left[i]` as `removed`, `i++`.
* `l :: ls, r :: rs` with `l = r` — push `unchanged`, advance both.
* otherwise, lookahead.  The scan `for (k = j + 1; k < right.length && k < j + 5)`
  visits exactly the first four elements of `rs`; a first match at array index
  `k = j + 1 + m` (i.e. index `m` within `rs.take 4`) pushes
  `right[j..k) = r :: rs.take m` as `added`, then `unchanged`, and sets
  `i += 1`, `j = k + 1` — so the remaining right suffix is `rs.drop (m + 1)`.
  The symmetric left scan does the same with `removed`; failing both, the
  replacement branch pushes `removed` then `added` and advances both cursors.

The `!== undefined` guards of the source are always true on the dense arrays
produced by `split` (every scanned index is in bounds), so they are not
modelled. -/
def computeDiff : List Str → List Str → List DiffSegment
  | [], [] => []
  | [], r :: rs => { text := r, type := .added } :: computeDiff [] rs
  | l :: ls, [] => { text := l, type := .removed } :: computeDiff ls []
  | l :: ls, r :: rs =>
    if l = r then
      { text := l, type := .unchanged } :: computeDiff ls rs
    else
      match findTokenIdx l (rs.take 4) with
      | some m =>
          ({ text := r, type := .added } ::
            (rs.take m).map fun t => { text := t, type := .added }) ++
          { text := l, type := .unchanged } :: computeDiff ls (rs.drop (m + 1))
      | none =>
        match findTokenIdx r (ls.take 4) with
        | some m =>
            ({ text := l, type := .removed } ::
              (ls.take m).map fun t => { text := t, type := .removed }) ++
            { text := r, type := .unchanged } :: computeDiff (ls.drop (m + 1)) rs
        | none =>
          { text := l, type := .removed } :: { text := r, type := .added } ::
            computeDiff ls rs
termination_by l r => l.length + r.length
decreasing_by
  all_goals simp [List.length_drop]
  all_goals omega

/-- The result of `dropWhile` is never longer than the input. -/
theorem length_dropWhile_le (p : α → Bool) (l : List α) :
    (l.dropWhile p).length ≤ l.length := by
  induction l with
  | nil => simp
  | cons a l ih =>
    rw [List.dropWhile_cons]
    split
    · exact Nat.le_trans ih (Nat.le_succ _)
    · simp

/-- When `dropWhile` returns a non-empty list, its head fails the predicate. -/
theorem dropWhile_eq_cons_head_not (p : α → Bool) :
    ∀ (l : List α) (a : α) (as : List α), l.dropWhile p = a :: as → p a = false := by
  intro l
  induction l with
  | nil => intro a as h; simp at h
  | cons b bs ih =>
    intro a as h
    rw [List.dropWhile_cons] at h
    split at h
    · exact ih a as h
    · next hb =>
      cases h
      simpa using hb

/-- Termination measure fact for `tokenize`: after dropping a (non-empty)
leading non-whitespace chunk's remainder and the whitespace run that follows,
strictly fewer characters remain. -/
theorem length_dropWhile_ws_lt (s : Str)
    (h : s.dropWhile (fun c => !(isJsWs c)) ≠ []) :
    ((s.dropWhile (fun c => !(isJsWs c))).dropWhile isJsWs).length < s.length := by
  have hle := length_dropWhile_le (fun c => !(isJsWs c)) s
  rcases hrest : s.dropWhile (fun c => !(isJsWs c)) with _ | ⟨c, cs⟩
  · exact absurd hrest h
  · have hc : isJsWs c = true := by
      have := dropWhile_eq_cons_head_not (fun c => !(isJsWs c)) s c cs hrest
      simpa using this
    rw [hrest] at hle
    rw [List.dropWhile_cons_of_pos hc]
    have := length_dropWhile_le isJsWs cs
    simp only [List.length_cons] at hle
    omega

/-- The tokenizer: JavaScript `s.split(/(\s+)/)`.  The result alternates
between (possibly empty) non-whitespace chunks and the whitespace runs that
separate them: the chunk before the first whitespace run, the run itself,
and so on recursively; a string with no remaining whitespace yields the
single chunk (so `tokenize "" = [""]`, and a leading/trailing whitespace run
produces an empty chunk next to it, exactly as in JavaScript). -/
def tokenize (s : Str) : List Str :=
  if h : s.dropWhile (fun c => !(isJsWs c)) = [] then
    [s.takeWhile fun c => !(isJsWs c)]
  else
    (s.takeWhile fun c => !(isJsWs c)) ::
    (s.dropWhile fun c => !(isJsWs c)).takeWhile isJsWs ::
    tokenize ((s.dropWhile fun c => !(isJsWs c)).dropWhile isJsWs)
termination_by s.length
decreasing_by
  exact length_dropWhile_ws_lt s h

/-- JavaScript `String.prototype.trim` (same whitespace class as `\s`). -/
def jsTrim (s : Str) : Str :=
  ((s.dropWhile isJsWs).reverse.dropWhile isJsWs).reverse

/-- The `handleCompare` click handler, as the pure function from the two
input texts to the segment list it stores into `diffResults`: if both inputs
trim to the empty string it returns `[]` without tokenizing, otherwise it
tokenizes both and runs `computeDiff`. -/
def handleCompare (leftText rightText : Str) : List DiffSegment :=
  if jsTrim leftText = [] ∧ jsTrim rightText = [] then
    []
  else
    computeDiff (tokenize leftText) (tokenize rightText)

/-- Texts of the segments whose kind is `unchanged` or `removed`, in output
order (the left-hand reading of a diff). -/
def leftTexts (segs : List DiffSegment) : List Str :=
  segs.filterMap fun s =>
    match s.type with
    | .added => none
    | _ => some s.text

/-- Texts of the segments whose kind is `unchanged` or `added`, in output
order (the right-hand reading of a diff). -/
def rightTexts (segs : List DiffSegment) : List Str :=
  segs.filterMap fun s =>
    match s.type with
    | .removed => none
    | _ => some s.text

/-- Texts of the `unchanged` segments, in output order. -/
def unchangedTexts (segs : List DiffSegment) : List Str :=
  segs.filterMap fun s =>
    match s.type with
    | .unchanged => some s.text
    | _ => none

/-! ### Equation lemmas for `computeDiff`, one per branch of the loop body -/

/-- Loop condition false: both suffixes empty, no segment emitted. -/
theorem computeDiff_nil_nil : computeDiff [] [] = [] := by
  simp [computeDiff]

/-- Rule 1 (left exhausted): the next right token is emitted as `added`. -/
theorem computeDiff_nil_cons (r : Str) (rs : List Str) :
    computeDiff [] (r :: rs) = { text := r, type := .added } :: computeDiff [] rs := by
  simp [computeDiff]

/-- Rule 2 (right exhausted): the next left token is emitted as `removed`. -/
theorem computeDiff_cons_nil (l : Str) (ls : List Str) :
    computeDiff (l :: ls) [] = { text := l, type := .removed } :: computeDiff ls [] := by
  simp [computeDiff]

/-- Rule 3 (exact match): one `unchanged` segment, both cursors advance. -/
theorem computeDiff_head_eq (l : Str) (ls rs : List Str) :
    computeDiff (l :: ls) (l :: rs) =
      { text := l, type := .unchanged } :: computeDiff ls rs := by
  rw [computeDiff]
  simp

/-- Rule 4a (right-scan resync): the current left token first reappears at
index `m` of the 4-token right window, so `right[j..k)` is emitted as `added`
followed by one `unchanged` segment, and the right cursor jumps past the
match. -/
theorem computeDiff_resync_right (l r : Str) (ls rs : List Str) (m : Nat)
    (hne : l ≠ r) (hm : findTokenIdx l (rs.take 4) = some m) :
    computeDiff (l :: ls) (r :: rs) =
      ({ text := r, type := .added } ::
        (rs.take m).map fun t => { text := t, type := .added }) ++
      { text := l, type := .unchanged } :: computeDiff ls (rs.drop (m + 1)) := by
  rw [computeDiff]
  rw [if_neg hne, hm]

/-- Rule 4b (left-scan resync, tried only when the right scan fails): the
current right token first reappears at index `m` of the 4-token left window,
so `left[i..k)` is emitted as `removed` followed by one `unchanged` segment,
and the left cursor jumps past the match. -/
theorem computeDiff_resync_left (l r : Str) (ls rs : List Str) (m : Nat)
    (hne : l ≠ r) (hnone : findTokenIdx l (rs.take 4) = none)
    (hm : findTokenIdx r (ls.take 4) = some m) :
    computeDiff (l :: ls) (r :: rs) =
      ({ text := l, type := .removed } ::
        (ls.take m).map fun t => { text := t, type := .removed }) ++
      { text := r, type := .unchanged } :: computeDiff (ls.drop (m + 1)) rs := by
  rw [computeDiff]
  rw [if_neg hne, hnone, hm]

/-- Rule 4c (replacement): neither window resyncs, so the mismatching pair is
emitted as `removed` then `added` and both cursors advance. -/
theorem computeDiff_replace (l r : Str) (ls rs : List Str)
    (hne : l ≠ r) (hnone : findTokenIdx l (rs.take 4) = none)
    (hnone' : findTokenIdx r (ls.take 4) = none) :
    computeDiff (l :: ls) (r :: rs) =
      { text := l, type := .removed } :: { text := r, type := .added } ::
        computeDiff ls rs := by
  rw [computeDiff]
  rw [if_neg hne, hnone, hnone']

/-! ### Specification of `findTokenIdx` -/

/-- The scan returns `none` exactly when the token is absent from the list. -/
theorem findTokenIdx_eq_none_iff (a : Str) (l : List Str) :
    findTokenIdx a l = none ↔ a ∉ l := by
  induction l with
  | nil => simp [findTokenIdx]
  | cons b bs ih =>
    rw [findTokenIdx]
    constructor
    · intro h
      split at h
      · simp at h
      · next hb =>
        simp only [Option.map_eq_none'] at h
        rw [List.mem_cons]
        push_neg
        exact ⟨fun he => hb he.symm, ih.mp h⟩
    · intro h
      rw [List.mem_cons] at h
      push_neg at h
      rw [if_neg (fun he => h.1 he.symm)]
      simp [ih.mpr h.2]

/-- A successful scan returns an in-bounds index holding the sought token. -/
theorem findTokenIdx_eq_some (a : Str) (l : List Str) (m : Nat)
    (h : findTokenIdx a l = some m) :
    ∃ hm : m < l.length, l.get ⟨m, hm⟩ = a := by
  induction l generalizing m with
  | nil => simp [findTokenIdx] at h
  | cons b bs ih =>
    rw [findTokenIdx] at h
    split at h
    · next hb =>
      cases h
      exact ⟨by simp, hb⟩
    · simp only [Option.map_eq_some'] at h
      obtain ⟨m', hm', rfl⟩ := h
      obtain ⟨hlt, hget⟩ := ih m' hm'
      exact ⟨by simpa using Nat.succ_lt_succ hlt, hget⟩

/-! ### Behaviour of the three text observers on segment lists -/

theorem leftTexts_nil : leftTexts [] = [] := rfl

theorem leftTexts_cons_added (t : Str) (segs : List DiffSegment) :
    leftTexts ({ text := t, type := .added } :: segs) = leftTexts segs := rfl

theorem leftTexts_cons_removed (t : Str) (segs : List DiffSegment) :
    leftTexts ({ text := t, type := .removed } :: segs) = t :: leftTexts segs := rfl

theorem leftTexts_cons_unchanged (t : Str) (segs : List DiffSegment) :
    leftTexts ({ text := t, type := .unchanged } :: segs) = t :: leftTexts segs := rfl

theorem rightTexts_nil : rightTexts [] = [] := rfl

theorem rightTexts_cons_added (t : Str) (segs : List DiffSegment) :
    rightTexts ({ text := t, type := .added } :: segs) = t :: rightTexts segs := rfl

theorem rightTexts_cons_removed (t : Str) (segs : List DiffSegment) :
    rightTexts ({ text := t, type := .removed } :: segs) = rightTexts segs := rfl

theorem rightTexts_cons_unchanged (t : Str) (segs : List DiffSegment) :
    rightTexts ({ text := t, type := .unchanged } :: segs) = t :: rightTexts segs := rfl

theorem leftTexts_append (xs ys : List DiffSegment) :
    leftTexts (xs ++ ys) = leftTexts xs ++ leftTexts ys :=
  List.filterMap_append xs ys _

theorem rightTexts_append (xs ys : List DiffSegment) :
    rightTexts (xs ++ ys) = rightTexts xs ++ rightTexts ys :=
  List.filterMap_append xs ys _

theorem leftTexts_map_added (xs : List Str) :
    leftTexts (xs.map fun t => { text := t, type := .added }) = [] := by
  induction xs with
  | nil => rfl
  | cons x xs ih => simpa [leftTexts_cons_added] using ih

theorem rightTexts_map_added (xs : List Str) :
    rightTexts (xs.map fun t => { text := t, type := .added }) = xs := by
  induction xs with
  | nil => rfl
  | cons x xs ih => simpa [rightTexts_cons_added] using ih

theorem leftTexts_map_removed (xs : List Str) :
    leftTexts (xs.map fun t => { text := t, type := .removed }) = xs := by
  induction xs with
  | nil => rfl
  | cons x xs ih => simpa [leftTexts_cons_removed] using ih

theorem rightTexts_map_removed (xs : List Str) :
    rightTexts (xs.map fun t => { text := t, type := .removed }) = [] := by
  induction xs with
  | nil => rfl
  | cons x xs ih => simpa [rightTexts_cons_removed] using ih

/-- A found window index, transported back to the full right suffix: the
suffix splits around the matched token. -/
theorem split_at_found_index (a : Str) (l : List Str) (m : Nat)
    (h : findTokenIdx a (l.take 4) = some m) :
    l.take m ++ a :: l.drop (m + 1) = l := by
  obtain ⟨hlt, hget⟩ := findTokenIdx_eq_some a (l.take 4) m h
  have hml : m < l.length := by
    have := hlt
    simp only [List.length_take] at this
    omega
  rw [List.get_eq_getElem] at hget
  rw [List.getElem_take] at hget
  conv_rhs => rw [← List.take_append_drop m l]
  rw [List.drop_eq_getElem_cons hml, hget]

/-- Master invariant of the aligner: the `unchanged`-or-`removed` texts of
the output are exactly the left input, and the `unchanged`-or-`added` texts
are exactly the right input (strong induction on the number of unprocessed
tokens). -/
theorem computeDiff_texts :
    ∀ (n : Nat) (L R : List Str), L.length + R.length ≤ n →
      leftTexts (computeDiff L R) = L ∧ rightTexts (computeDiff L R) = R := by
  intro n
  induction n with
  | zero =>
    intro L R h
    have hL : L = [] := List.length_eq_zero.mp (by omega)
    have hR : R = [] := List.length_eq_zero.mp (by omega)
    subst hL; subst hR
    rw [computeDiff_nil_nil]
    exact ⟨rfl, rfl⟩
  | succ n ih =>
    intro L R h
    match L, R with
    | [], [] =>
      rw [computeDiff_nil_nil]
      exact ⟨rfl, rfl⟩
    | [], r :: rs =>
      have hrec := ih [] rs (by simp at h ⊢; omega)
      rw [computeDiff_nil_cons, leftTexts_cons_added, rightTexts_cons_added,
        hrec.1, hrec.2]
      exact ⟨rfl, rfl⟩
    | l :: ls, [] =>
      have hrec := ih ls [] (by simp at h ⊢; omega)
      rw [computeDiff_cons_nil, leftTexts_cons_removed, rightTexts_cons_removed,
        hrec.1, hrec.2]
      exact ⟨rfl, rfl⟩
    | l :: ls, r :: rs =>
      simp only [List.length_cons] at h
      by_cases hlr : l = r
      · subst hlr
        have hrec := ih ls rs (by omega)
        rw [computeDiff_head_eq, leftTexts_cons_unchanged, rightTexts_cons_unchanged,
          hrec.1, hrec.2]
        exact ⟨rfl, rfl⟩
      · rcases hm : findTokenIdx l (rs.take 4) with _ | m
        · rcases hm2 : findTokenIdx r (ls.take 4) with _ | m
          · have hrec := ih ls rs (by omega)
            rw [computeDiff_replace l r ls rs hlr hm hm2,
              leftTexts_cons_removed, leftTexts_cons_added,
              rightTexts_cons_removed, rightTexts_cons_added,
              hrec.1, hrec.2]
            exact ⟨rfl, rfl⟩
          · have hrec := ih (ls.drop (m + 1)) rs (by
              have := List.length_drop (m + 1) ls
              omega)
            rw [computeDiff_resync_left l r ls rs m hlr hm hm2,
              leftTexts_append, rightTexts_append,
              leftTexts_cons_removed, rightTexts_cons_removed,
              leftTexts_map_removed, rightTexts_map_removed,
              leftTexts_cons_unchanged, rightTexts_cons_unchanged,
              hrec.1, hrec.2]
            constructor
            · rw [List.cons_append, split_at_found_index r ls m hm2]
            · rfl
        · have hrec := ih ls (rs.drop (m + 1)) (by
            have := List.length_drop (m + 1) rs
            omega)
          rw [computeDiff_resync_right l r ls rs m hlr hm,
            leftTexts_append, rightTexts_append,
            leftTexts_cons_added, rightTexts_cons_added,
            leftTexts_map_added, rightTexts_map_added,
            leftTexts_cons_unchanged, rightTexts_cons_unchanged,
            hrec.1, hrec.2]
          constructor
          · rfl
          · rw [List.cons_append, split_at_found_index l rs m hm]

/-! ### Equation lemmas for `tokenize` -/

/-- No whitespace remains: the whole string is a single chunk token. -/
theorem tokenize_eq_single (s : Str) (h : s.dropWhile (fun c => !(isJsWs c)) = []) :
    tokenize s = [s.takeWhile fun c => !(isJsWs c)] := by
  rw [tokenize]
  rw [dif_pos h]

/-- A whitespace run remains: emit the chunk before it and the run, then
tokenize the remainder. -/
theorem tokenize_eq_cons (s : Str) (h : s.dropWhile (fun c => !(isJsWs c)) ≠ []) :
    tokenize s =
      (s.takeWhile fun c => !(isJsWs c)) ::
      (s.dropWhile fun c => !(isJsWs c)).takeWhile isJsWs ::
      tokenize ((s.dropWhile fun c => !(isJsWs c)).dropWhile isJsWs) := by
  rw [tokenize]
  rw [dif_neg h]

/-- Concatenating the tokens of `s`, in order, yields `s` back (strong
induction on the length of `s`). -/
theorem flatten_tokenize : ∀ (n : Nat) (s : Str), s.length ≤ n →
    (tokenize s).flatten = s := by
  intro n
  induction n with
  | zero =>
    intro s hs
    have : s = [] := List.length_eq_zero.mp (by omega)
    subst this
    rw [tokenize_eq_single [] rfl]
    rfl
  | succ n ih =>
    intro s hs
    by_cases h : s.dropWhile (fun c => !(isJsWs c)) = []
    · rw [tokenize_eq_single s h]
      rw [List.flatten_cons, List.flatten_nil, List.append_nil]
      conv_rhs => rw [← List.takeWhile_append_dropWhile (p := fun c => !(isJsWs c)) (l := s)]
      rw [h, List.append_nil]
    · rw [tokenize_eq_cons s h]
      have hlt := length_dropWhile_ws_lt s h
      rw [List.flatten_cons, List.flatten_cons]
      rw [ih _ (by omega)]
      rw [List.takeWhile_append_dropWhile]
      rw [List.takeWhile_append_dropWhile]

/-- Shape of a tokenizer output, scanned left to right.  `tokenRuns b toks`
says: `toks` is a non-empty alternation `chunk, run, chunk, run, ..., chunk`
that starts and ends with a non-whitespace chunk; every whitespace run is
non-empty and whitespace-only; every chunk is non-whitespace-only; and a
chunk may be empty only in head position when the flag `b` allows it (the
flag is `true` only for the very first token) or in last position.  In
particular adjacent tokens never belong to the same character class, so
every whitespace run and every non-empty chunk is a maximal run of the
concatenated string. -/
def tokenRuns : Bool → List Str → Prop
  | _, [] => False
  | _, [c] => ∀ x ∈ c, isJsWs x = false
  | b, c :: w :: rest =>
      (∀ x ∈ c, isJsWs x = false) ∧ (b = true ∨ c ≠ []) ∧
      w ≠ [] ∧ (∀ x ∈ w, isJsWs x = true) ∧
      tokenRuns false rest

/-- A shape whose head chunk is separately known non-empty (whenever there
are at least two tokens) also satisfies the strict flag. -/
theorem tokenRuns_false_of_true (ts : List Str) (h : tokenRuns true ts)
    (hhead : ∀ (c w : Str) (rest : List Str), ts = c :: w :: rest → c ≠ []) :
    tokenRuns false ts := by
  match ts with
  | [] => exact h
  | [c] => exact h
  | c :: w :: rest =>
    obtain ⟨h1, _, h3, h4, h5⟩ := h
    exact ⟨h1, Or.inr (hhead c w rest rfl), h3, h4, h5⟩

/-- When the input string starts with a non-whitespace character (as every
recursive remainder inside `tokenize` does), the head token of its output is
non-empty whenever the output has at least two tokens. -/
theorem tokenize_multi_head_ne_nil (u : Str)
    (hu : ∀ (d : Char) (ds : List Char), u = d :: ds → isJsWs d = false) :
    ∀ (c w : Str) (rest : List Str), tokenize u = c :: w :: rest → c ≠ [] := by
  intro c w rest heq
  by_cases h2 : u.dropWhile (fun c => !(isJsWs c)) = []
  · rw [tokenize_eq_single u h2] at heq
    exact absurd heq (by simp)
  · rw [tokenize_eq_cons u h2] at heq
    injection heq with hc _
    cases u with
    | nil => exact absurd rfl h2
    | cons d ds =>
      have hd := hu d ds rfl
      rw [List.takeWhile_cons_of_pos (by simp [hd])] at hc
      intro hcnil
      rw [hcnil] at hc
      simp at hc

/-- Every tokenizer output is an alternation starting and ending with a
non-whitespace chunk, with non-empty whitespace-only runs in between; only
the first and last chunk can be empty (strong induction on the length of
`s`). -/
theorem tokenRuns_tokenize : ∀ (n : Nat) (s : Str), s.length ≤ n →
    tokenRuns true (tokenize s) := by
  intro n
  induction n with
  | zero =>
    intro s hs
    have : s = [] := List.length_eq_zero.mp (by omega)
    subst this
    rw [tokenize_eq_single [] rfl]
    intro x hx
    simp at hx
  | succ n ih =>
    intro s hs
    have hchunk : ∀ x ∈ s.takeWhile (fun c => !(isJsWs c)), isJsWs x = false := by
      intro x hx
      have := List.mem_takeWhile_imp hx
      simpa using this
    by_cases h : s.dropWhile (fun c => !(isJsWs c)) = []
    · rw [tokenize_eq_single s h]
      exact hchunk
    · rw [tokenize_eq_cons s h]
      refine ⟨hchunk, Or.inl rfl, ?_, ?_, ?_⟩
      · rcases hrest : s.dropWhile (fun c => !(isJsWs c)) with _ | ⟨c, cs⟩
        · exact absurd hrest h
        · have hc : isJsWs c = true := by
            have := dropWhile_eq_cons_head_not (fun c => !(isJsWs c)) s c cs hrest
            simpa using this
          rw [List.takeWhile_cons_of_pos hc]
          simp
      · intro x hx
        exact List.mem_takeWhile_imp hx
      · have hlt := length_dropWhile_ws_lt s h
        refine tokenRuns_false_of_true _ (ih _ (by omega)) ?_
        exact tokenize_multi_head_ne_nil _
          (fun d ds hdd => dropWhile_eq_cons_head_not isJsWs _ d ds hdd)

/-! ### Counting and sublist helpers for the observers -/

theorem leftTexts_length_le (segs : List DiffSegment) :
    (leftTexts segs).length ≤ segs.length :=
  List.length_filterMap_le _ segs

theorem rightTexts_length_le (segs : List DiffSegment) :
    (rightTexts segs).length ≤ segs.length :=
  List.length_filterMap_le _ segs

/-- Every segment is counted on at least one side: a segment list is no
longer than its left-hand and right-hand readings combined. -/
theorem length_le_texts_sum (segs : List DiffSegment) :
    segs.length ≤ (leftTexts segs).length + (rightTexts segs).length := by
  induction segs with
  | nil => simp [leftTexts_nil, rightTexts_nil]
  | cons s segs ih =>
    obtain ⟨t, ty⟩ := s
    cases ty
    · rw [leftTexts_cons_added, rightTexts_cons_added]
      simp only [List.length_cons]
      omega
    · rw [leftTexts_cons_removed, rightTexts_cons_removed]
      simp only [List.length_cons]
      omega
    · rw [leftTexts_cons_unchanged, rightTexts_cons_unchanged]
      simp only [List.length_cons]
      omega

theorem unchangedTexts_nil : unchangedTexts [] = [] := rfl

theorem unchangedTexts_cons_added (t : Str) (segs : List DiffSegment) :
    unchangedTexts ({ text := t, type := .added } :: segs) = unchangedTexts segs := rfl

theorem unchangedTexts_cons_removed (t : Str) (segs : List DiffSegment) :
    unchangedTexts ({ text := t, type := .removed } :: segs) = unchangedTexts segs := rfl

theorem unchangedTexts_cons_unchanged (t : Str) (segs : List DiffSegment) :
    unchangedTexts ({ text := t, type := .unchanged } :: segs) =
      t :: unchangedTexts segs := rfl

/-- The `unchanged` texts are a subsequence of the left-hand reading. -/
theorem unchangedTexts_sublist_leftTexts (segs : List DiffSegment) :
    List.Sublist (unchangedTexts segs) (leftTexts segs) := by
  induction segs with
  | nil => exact List.Sublist.refl []
  | cons s segs ih =>
    obtain ⟨t, ty⟩ := s
    cases ty
    · rw [unchangedTexts_cons_added, leftTexts_cons_added]
      exact ih
    · rw [unchangedTexts_cons_removed, leftTexts_cons_removed]
      exact List.Sublist.cons t ih
    · rw [unchangedTexts_cons_unchanged, leftTexts_cons_unchanged]
      exact List.Sublist.cons₂ t ih

/-- The `unchanged` texts are a subsequence of the right-hand reading. -/
theorem unchangedTexts_sublist_rightTexts (segs : List DiffSegment) :
    List.Sublist (unchangedTexts segs) (rightTexts segs) := by
  induction segs with
  | nil => exact List.Sublist.refl []
  | cons s segs ih =>
    obtain ⟨t, ty⟩ := s
    cases ty
    · rw [unchangedTexts_cons_added, rightTexts_cons_added]
      exact List.Sublist.cons t ih
    · rw [unchangedTexts_cons_removed, rightTexts_cons_removed]
      exact ih
    · rw [unchangedTexts_cons_unchanged, rightTexts_cons_unchanged]
      exact List.Sublist.cons₂ t ih

/-- Aligning a token list against itself emits only `unchanged` segments. -/
theorem computeDiff_self (L : List Str) :
    computeDiff L L = L.map fun t => { text := t, type := .unchanged } := by
  induction L with
  | nil => rw [computeDiff_nil_nil]; rfl
  | cons l ls ih => rw [computeDiff_head_eq, ih]; rfl

/-! ### Helpers for the empty-token quirk -/

theorem dropWhile_eq_self_of_forall (p : α → Bool) (l : List α)
    (h : ∀ x ∈ l, p x = false) : l.dropWhile p = l := by
  cases l with
  | nil => rfl
  | cons a as =>
    exact List.dropWhile_cons_of_neg (by simp [h a (List.mem_cons_self a as)])

/-- A non-empty all-non-whitespace string is a single token. -/
theorem tokenize_word (w : Str) (h : ∀ c ∈ w, isJsWs c = false) :
    tokenize w = [w] := by
  have hdrop : w.dropWhile (fun c => !(isJsWs c)) = [] := by
    rw [List.dropWhile_eq_nil_iff]
    intro x hx
    simp [h x hx]
  rw [tokenize_eq_single w hdrop]
  have htake : w.takeWhile (fun c => !(isJsWs c)) = w :=
    List.takeWhile_eq_self_iff.mpr (fun x hx => by simp [h x hx])
  rw [htake]

/-- `trim` leaves an all-non-whitespace string unchanged. -/
theorem jsTrim_word (w : Str) (h : ∀ c ∈ w, isJsWs c = false) :
    jsTrim w = w := by
  unfold jsTrim
  rw [dropWhile_eq_self_of_forall isJsWs w h]
  rw [dropWhile_eq_self_of_forall isJsWs w.reverse
    (fun x hx => h x (List.mem_reverse.mp hx))]
  exact List.reverse_reverse w

/-! ### The claims -/

/-- Claim C1: reconstruction invariant — for every pair of input token lists,
concatenating the texts of the output segments whose kind is `unchanged` or
`removed`, in output order, equals the concatenation of `left`, and
concatenating the `unchanged`-or-`added` texts equals the concatenation of
`right`. -/
theorem C1_reconstruction (left right : List Str) :
    (leftTexts (computeDiff left right)).flatten = left.flatten ∧
    (rightTexts (computeDiff left right)).flatten = right.flatten := by
  have h := computeDiff_texts (left.length + right.length) left right (Nat.le_refl _)
  rw [h.1, h.2]
  exact ⟨rfl, rfl⟩

/-- Claim C2: termination with length bounds — `computeDiff` is total on all
finite token lists (its Lean definition is accepted by the strictly
decreasing count of unprocessed tokens, the loop variant of the spec), and
the number of emitted segments is at least `max` of the input lengths and at
most their sum. -/
theorem C2_termination_length_bounds (left right : List Str) :
    max left.length right.length ≤ (computeDiff left right).length ∧
    (computeDiff left right).length ≤ left.length + right.length := by
  have h := computeDiff_texts (left.length + right.length) left right (Nat.le_refl _)
  have hlL : (leftTexts (computeDiff left right)).length = left.length := by rw [h.1]
  have hrR : (rightTexts (computeDiff left right)).length = right.length := by rw [h.2]
  have h1 := leftTexts_length_le (computeDiff left right)
  have h2 := rightTexts_length_le (computeDiff left right)
  have h3 := length_le_texts_sum (computeDiff left right)
  constructor
  · exact Nat.max_le.mpr ⟨by omega, by omega⟩
  · omega

/-- Claim C3: identity — aligning `tokenize s` against itself yields exactly
one `unchanged` segment per token, in the original order and with the
original text; no `added` or `removed` segments are emitted. -/
theorem C3_identity (s : Str) :
    computeDiff (tokenize s) (tokenize s) =
      (tokenize s).map fun t => { text := t, type := SegType.unchanged } :=
  computeDiff_self (tokenize s)

/-- Claim C4: window boundary — the lookahead windows are the four tokens
strictly after each cursor (`rs.take 4` and `ls.take 4` on the suffixes), so
at a mismatch where neither window contains a resync token the step emits
`removed` then `added` and advances both cursors by one, even when a match
sits exactly five positions ahead (see the witness). -/
theorem C4_window_boundary (l r : Str) (ls rs : List Str)
    (hne : l ≠ r) (hl : l ∉ rs.take 4) (hr : r ∉ ls.take 4) :
    computeDiff (l :: ls) (r :: rs) =
      { text := l, type := .removed } :: { text := r, type := .added } ::
        computeDiff ls rs :=
  computeDiff_replace l r ls rs hne
    ((findTokenIdx_eq_none_iff l (rs.take 4)).mpr hl)
    ((findTokenIdx_eq_none_iff r (ls.take 4)).mpr hr)

/-- Witness for C4: the left token `"x"` reappears on the right exactly five
positions ahead of the right cursor (at index 5 of the right list, i.e. the
fifth position after the cursor), outside the 4-token window, so the step is
a replacement. -/
theorem C4_window_boundary_witness :
    ((['x'] : Str) ≠ ['a'] ∧
      (['x'] : Str) ∉ ([['b'], ['c'], ['d'], ['e'], ['x']] : List Str).take 4 ∧
      (['a'] : Str) ∉ ([] : List Str).take 4) ∧
    computeDiff [['x']] [['a'], ['b'], ['c'], ['d'], ['e'], ['x']] =
      { text := ['x'], type := .removed } :: { text := ['a'], type := .added } ::
        computeDiff [] [['b'], ['c'], ['d'], ['e'], ['x']] :=
  ⟨⟨by decide, by decide, by decide⟩,
   C4_window_boundary ['x'] ['a'] [] [['b'], ['c'], ['d'], ['e'], ['x']]
     (by decide) (by decide) (by decide)⟩

/-- Claim C5: tie-break — whenever the right-window scan finds the current
left token (first occurrence at window index `k`), rule 4a fires: the right
tokens before the match are emitted as `added`, then one `unchanged`
segment, the left cursor advances by one and the right cursor jumps past the
match.  This happens even when the left-window scan would also succeed
(hypothesis `hleft`), so rule 4b is never applied in that state. -/
theorem C5_tie_break (l r : Str) (ls rs : List Str) (k : Nat)
    (hne : l ≠ r)
    (hfirst : findTokenIdx l (rs.take 4) = some k)
    (hleft : r ∈ ls.take 4) :
    computeDiff (l :: ls) (r :: rs) =
      ({ text := r, type := .added } ::
        (rs.take k).map fun t => { text := t, type := .added }) ++
      { text := l, type := .unchanged } :: computeDiff ls (rs.drop (k + 1)) :=
  computeDiff_resync_right l r ls rs k hne hfirst

/-- Witness for C5: left `["a", "b"]` vs right `["b", "a"]` — both resyncs
are possible (`"a"` is in the right window, `"b"` is in the left window),
and the output takes the 4a (insertion-on-the-right) form. -/
theorem C5_tie_break_witness :
    ((['a'] : Str) ≠ ['b'] ∧
      findTokenIdx ['a'] (([['a']] : List Str).take 4) = some 0 ∧
      (['b'] : Str) ∈ ([['b']] : List Str).take 4) ∧
    computeDiff [['a'], ['b']] [['b'], ['a']] =
      ({ text := ['b'], type := .added } ::
        (([['a']] : List Str).take 0).map fun t => { text := t, type := .added }) ++
      { text := ['a'], type := .unchanged } ::
        computeDiff [['b']] (([['a']] : List Str).drop 1) :=
  ⟨⟨by decide, by decide, by decide⟩,
   C5_tie_break ['a'] ['b'] [['b']] [['a']] 0 (by decide) (by decide) (by decide)⟩

/-- Claim C6: degenerate short-circuit — when both inputs trim to the empty
string, `handleCompare` returns the empty segment list (the guard branch of
the source, which returns before tokenizing). -/
theorem C6_short_circuit (original modified : Str)
    (hl : jsTrim original = []) (hr : jsTrim modified = []) :
    handleCompare original modified = [] := by
  unfold handleCompare
  rw [if_pos ⟨hl, hr⟩]

/-- Witness for C6: a whitespace-only original and an empty modified text
compare to the empty segment list. -/
theorem C6_short_circuit_witness :
    (jsTrim [' '] = [] ∧ jsTrim [] = []) ∧ handleCompare [' '] [] = [] :=
  ⟨⟨by decide, by decide⟩, C6_short_circuit [' '] [] (by decide) (by decide)⟩

/-- Claim C7: tokenizer round-trip — concatenating, in order, all tokens
produced by tokenizing `s` reproduces `s` exactly. -/
theorem C7_tokenize_round_trip (s : Str) : (tokenize s).flatten = s :=
  flatten_tokenize s.length s (Nat.le_refl _)

/-- Counterexample to claim C8 as stated: tokenizing the empty string
produces the single token `""`, which is empty — so it is not true that
every token is a (non-empty) maximal run of whitespace or of
non-whitespace characters. -/
theorem C8_counterexample :
    tokenize [] = [[]] ∧ ¬(∀ t ∈ tokenize ([] : Str), t ≠ []) := by
  have h : tokenize ([] : Str) = [[]] := by
    rw [tokenize_eq_single [] rfl]
    rfl
  refine ⟨h, ?_⟩
  intro hall
  exact hall [] (by rw [h]; exact List.mem_singleton.mpr rfl) rfl

/-- Claim C8 (amended): every token produced by tokenizing any string is
either a maximal run of whitespace characters or a maximal — but possibly
empty — run of non-whitespace characters, with empty tokens only at the two
boundaries: the token list alternates between non-whitespace chunks and
non-empty whitespace-only runs, starting and ending with a chunk, and only
the first and the last chunk can be empty (which happens exactly when the
string is empty or begins/ends with whitespace, e.g. `tokenize "" = [""]`).
Since adjacent tokens never share a character class, together with the
round-trip property this makes every whitespace token and every non-empty
chunk a maximal run of the input. -/
theorem C8_token_shape_amended (s : Str) : tokenRuns true (tokenize s) :=
  tokenRuns_tokenize s.length s (Nat.le_refl _)

/-- Claim C9: empty-string tokenization quirk through the general path —
`tokenize ""` is the one-element list `[""]`, and comparing an empty
original against a modified text that is a single non-whitespace word `w`
(so the short-circuit does not fire) routes the empty token through the
aligner like any other token, producing `[removed "", added w]` via the
replacement rule 4c. -/
theorem C9_empty_token_quirk (w : Str) (hw : w ≠ [])
    (hnws : ∀ c ∈ w, isJsWs c = false) :
    tokenize [] = [[]] ∧
    handleCompare [] w =
      [{ text := [], type := .removed }, { text := w, type := .added }] := by
  have htokempty : tokenize ([] : Str) = [[]] := by
    rw [tokenize_eq_single [] rfl]
    rfl
  refine ⟨htokempty, ?_⟩
  have htokw : tokenize w = [w] := tokenize_word w hnws
  have htrim : jsTrim w = w := jsTrim_word w hnws
  unfold handleCompare
  rw [if_neg (by rw [htrim]; intro hcon; exact hw hcon.2)]
  rw [htokempty, htokw]
  have hne : ([] : Str) ≠ w := fun hc => hw hc.symm
  rw [computeDiff_replace [] w [] [] hne rfl rfl, computeDiff_nil_nil]

/-- Witness for C9: original `""` against modified `"a"`. -/
theorem C9_empty_token_quirk_witness :
    ((['a'] : Str) ≠ [] ∧ ∀ c ∈ (['a'] : Str), isJsWs c = false) ∧
    (tokenize [] = [[]] ∧
      handleCompare [] ['a'] =
        [{ text := [], type := .removed }, { text := ['a'], type := .added }]) :=
  ⟨⟨by decide, by decide⟩, C9_empty_token_quirk ['a'] (by decide) (by decide)⟩

/-- Claim C10: the `unchanged` texts trace a common subsequence — taken in
output order they form a subsequence of `left` and a subsequence of `right`
(each `unchanged` segment matches one position in each input, and those
matched positions are strictly increasing across the output, which is
exactly `List.Sublist` of both inputs). -/
theorem C10_common_subsequence (left right : List Str) :
    List.Sublist (unchangedTexts (computeDiff left right)) left ∧
    List.Sublist (unchangedTexts (computeDiff left right)) right := by
  have h := computeDiff_texts (left.length + right.length) left right (Nat.le_refl _)
  constructor
  · have hs := unchangedTexts_sublist_leftTexts (computeDiff left right)
    rwa [h.1] at hs
  · have hs := unchangedTexts_sublist_rightTexts (computeDiff left right)
    rwa [h.2] at hs
